import Mathlib

/-!
Shallow embedding of `src/hashtable.c`: a fixed-capacity string hash table
with per-slot chaining (`hash`, `ht_init`, `ht_create_entry`, `ht_set`,
`ht_get`, `print_hashtable`).

Modelling decisions, traceable to the C source:
* A C string is a finite list of byte values (`Str := List Nat`); a valid
  C string has bytes in `1..255` (`CStr`).  `strcmp k1 k2 == 0` is equality
  of the byte lists.
* `size_t` arithmetic is `Nat` arithmetic modulo `2 ^ 64`; `unsigned int`
  is modulo `2 ^ 32`.  `key[i]` has type `char`, signed on the target
  platform, so a byte `b ≥ 128` is read as `b - 256` and converted to
  `size_t` as `2 ^ 64 - 256 + b` (`charAsSize`).
* `malloc` outcomes are an explicit oracle (`Alloc`): one `Bool` per call
  site of a single `ht_set` invocation (node, key buffer, value buffer of
  `ht_create_entry`; `tmp` of the update branch).
* `ht_create_entry` stores through `entry` (`entry->key = malloc(...)`)
  before testing `entry != NULL`; when the node allocation fails this is a
  null-pointer store, modelled by the explicit outcome `CreateOut.ub`.
* The table is a function from slot index to its chain, read head to tail
  (`Table := Nat → List Entry`); `ht_init` yields `initTable`.
* `print_hashtable` (the enumeration) visits slots `0 .. TABLE_SIZE - 1`
  in ascending order and each chain head to tail (`enumerate`).
-/

namespace HT

/-- Byte strings: the bytes of a C string, without the terminating `NUL`. -/
abbrev Str := List Nat

/-- A valid C string: every byte is nonzero and fits in one byte. -/
def CStr (s : Str) : Prop := ∀ b ∈ s, 0 < b ∧ b < 256

/-- `#define TABLE_SIZE 100000` (the spec's CAPACITY). -/
def TABLE_SIZE : Nat := 100000

/-- The value of `key[i]` (a signed `char`) after conversion to `size_t`:
bytes below 128 are themselves, a byte `b ≥ 128` is the negative `b - 256`,
which converts to `2 ^ 64 - 256 + b`. -/
def charAsSize (b : Nat) : Nat := if b < 128 then b else 2 ^ 64 - 256 + b

/-- One iteration of the hash loop: `value = value * 37 + key[i]` in
`size_t` arithmetic. -/
def hashStep (acc b : Nat) : Nat := (acc * 37 + charAsSize b) % 2 ^ 64

/-- `hash` from the source: `key_len` is `strlen(key)` truncated to
`unsigned int`, the loop folds `hashStep` over the first `key_len` bytes,
and the result is reduced `% TABLE_SIZE`. -/
def hash (key : Str) : Nat :=
  ((key.take (key.length % 2 ^ 32)).foldl hashStep 0) % TABLE_SIZE

/-- Modelled from the spec (§4.1), for comparison with `hash`: one step of
`acc = acc * 37 + byte` on the plain byte value, wrapping as unsigned. -/
def specHashStep (acc b : Nat) : Nat := (acc * 37 + b) % 2 ^ 64

/-- Modelled from the spec (§4.1), for comparison with `hash`: iterate the
key's bytes left to right with `specHashStep`, then reduce modulo
CAPACITY. -/
def specHash (key : Str) : Nat := (key.foldl specHashStep 0) % TABLE_SIZE

/-- `entry_t`: an owned key-value pair.  The `next` link is represented by
the position in the chain's list. -/
structure Entry where
  key : Str
  value : Str
deriving DecidableEq

/-- `hashtable_t`: slot index to chain, head first.  Only indices
`0 .. TABLE_SIZE - 1` exist in the C array; well-formed tables are empty
elsewhere. -/
def Table := Nat → List Entry

/-- `ht_init`: every slot starts `NULL`. -/
def initTable : Table := fun _ => []

/-- Writing one slot of the table array. -/
def updateT (t : Table) (i : Nat) (ch : List Entry) : Table :=
  fun j => if j = i then ch else t j

/-- Outcomes of the `malloc` calls a single `ht_set` can make: the three
allocations of `ht_create_entry` (node, key buffer, value buffer) and the
`tmp` buffer of the update branch.  `true` means the allocation succeeds. -/
structure Alloc where
  node : Bool
  keyBuf : Bool
  valBuf : Bool
  tmp : Bool

/-- Result of `ht_create_entry`: a fresh entry, a clean failure returning
`NULL` after freeing the partial buffers, or the null-pointer store
`entry->key = malloc(...)` executed with `entry == NULL`. -/
inductive CreateOut where
  | ub
  | fail
  | ok (e : Entry)
deriving DecidableEq

/-- `ht_create_entry`: allocates the node, then unconditionally stores the
key/value buffer pointers through `entry` — undefined behaviour when the
node allocation failed.  With a node, failure of either buffer is cleaned
up and `NULL` returned; otherwise the key and value are copied in. -/
def ht_create_entry (a : Alloc) (key value : Str) : CreateOut :=
  if a.node then
    if a.keyBuf && a.valBuf then CreateOut.ok ⟨key, value⟩
    else CreateOut.fail
  else CreateOut.ub

/-- Result of `ht_set`: either undefined behaviour (via `ht_create_entry`
with a failed node allocation), or a returned entry pointer (`none` for
`NULL`) together with the table after the call. -/
inductive SetOut where
  | ub
  | out (ret : Option Entry) (t : Table)

/-- The `do`/`while` walk of `ht_set` over a chain, together with the
post-loop `prev->next = ht_create_entry(key, value)` (the `[]` case, reached
when the chain is exhausted without a key match).  Returns `none` on
undefined behaviour, otherwise the returned entry pointer and the chain
after the call. -/
def setChain (a : Alloc) (key value : Str) : List Entry → Option (Option Entry × List Entry)
  | [] =>
    match ht_create_entry a key value with
    | CreateOut.ub => none
    | CreateOut.fail => some (none, [])
    | CreateOut.ok e => some (some e, [e])
  | e :: rest =>
    if e.key = key then
      if a.tmp then some (some ⟨e.key, value⟩, ⟨e.key, value⟩ :: rest)
      else some (none, e :: rest)
    else
      match setChain a key value rest with
      | none => none
      | some (r, rest2) => some (r, e :: rest2)

/-- `ht_set`: hash the key; an empty slot receives `ht_create_entry`'s
result directly (`NULL` on failure, leaving the slot empty), a non-empty
slot is walked by `setChain`. -/
def ht_set (a : Alloc) (t : Table) (key value : Str) : SetOut :=
  let slot := hash key
  match t slot with
  | [] =>
    match ht_create_entry a key value with
    | CreateOut.ub => SetOut.ub
    | CreateOut.fail => SetOut.out none (updateT t slot [])
    | CreateOut.ok e => SetOut.out (some e) (updateT t slot [e])
  | e :: rest =>
    match setChain a key value (e :: rest) with
    | none => SetOut.ub
    | some (r, ch2) => SetOut.out r (updateT t slot ch2)

/-- The lookup loop of `ht_get` over one chain: first `strcmp` match wins. -/
def chainGet (key : Str) : List Entry → Option Str
  | [] => none
  | e :: rest => if e.key = key then some e.value else chainGet key rest

/-- `ht_get`: hash the key and walk the slot's chain; `none` is `NULL`. -/
def ht_get (t : Table) (key : Str) : Option Str :=
  chainGet key (t (hash key))

/-- The lookup loop with the traversed chain threaded through as state: the
walk only reads entries, so it hands back the chain it visited.  Used to
state that `ht_get` leaves the table unchanged. -/
def chainGetSt (key : Str) : List Entry → Option Str × List Entry
  | [] => (none, [])
  | e :: rest =>
    if e.key = key then (some e.value, e :: rest)
    else
      match chainGetSt key rest with
      | (r, rest2) => (r, e :: rest2)

/-- `ht_get` with the table threaded through as state: the slot it walked
is written back as the walk left it. -/
def ht_get_st (t : Table) (key : Str) : Option Str × Table :=
  match chainGetSt key (t (hash key)) with
  | (r, ch2) => (r, updateT t (hash key) ch2)

/-- The pairs `print_hashtable` emits for slots `0 .. n - 1`, in loop
order: slot index ascending, each chain head to tail. -/
def enumUpTo (t : Table) : Nat → List (Nat × Str × Str)
  | 0 => []
  | n + 1 => enumUpTo t n ++ (t n).map (fun e => (n, e.key, e.value))

/-- The full enumeration of the table, as `print_hashtable` prints it. -/
def enumerate (t : Table) : List (Nat × Str × Str) := enumUpTo t TABLE_SIZE

/-- The keys in enumeration order. -/
def enumKeys (t : Table) : List Str := (enumerate t).map (fun p => p.2.1)

/-- One `ht_set` call of a driver program: its allocation outcomes, key and
value. -/
structure Op where
  alloc : Alloc
  key : Str
  value : Str

/-- Run a sequence of `ht_set` calls; `none` when one of them hits
undefined behaviour. -/
def runOps (t : Table) : List Op → Option Table
  | [] => some t
  | op :: rest =>
    match ht_set op.alloc t op.key op.value with
    | SetOut.ub => none
    | SetOut.out _ t2 => runOps t2 rest

/-- Well-formed table: every entry sits in the slot its key hashes to, and
no chain holds the same key twice. -/
def wf (t : Table) : Prop :=
  (∀ i, ∀ e ∈ t i, hash e.key = i) ∧ ∀ i, ((t i).map Entry.key).Nodup

/-- The entries of a chain whose key differs from `k`, in chain order. -/
def othersOf (k : Str) (ch : List Entry) : List Entry :=
  ch.filter (fun e => decide (e.key ≠ k))

/-- The table states reachable from `t` by `ht_set` calls none of which is a
successful call on the key `k`: each step either targets a different key or
returns `NULL`. -/
inductive KeptSince (k : Str) (t : Table) : Table → Prop
  | refl : KeptSince k t t
  | step {t1 t2 : Table} {a : Alloc} {k2 v2 : Str} {r : Option Entry} :
      KeptSince k t t1 → ht_set a t1 k2 v2 = SetOut.out r t2 →
      (k2 ≠ k ∨ r = none) → KeptSince k t t2

theorem TABLE_SIZE_pos : 0 < TABLE_SIZE := by decide

theorem hash_lt (key : Str) : hash key < TABLE_SIZE :=
  Nat.mod_lt _ TABLE_SIZE_pos

theorem updateT_same (t : Table) (i : Nat) (ch : List Entry) : updateT t i ch i = ch := by
  simp [updateT]

theorem updateT_other (t : Table) (i : Nat) (ch : List Entry) (j : Nat) (h : j ≠ i) :
    updateT t i ch j = t j := by
  simp [updateT, h]

theorem updateT_self (t : Table) (i : Nat) : updateT t i (t i) = t := by
  funext j
  by_cases h : j = i
  · subst h; simp [updateT]
  · simp [updateT, h]

/-- A successful `ht_create_entry` returns the node holding copies of the
key and value. -/
theorem ht_create_entry_ok (a : Alloc) (k v : Str) (e : Entry) :
    ht_create_entry a k v = CreateOut.ok e → e = ⟨k, v⟩ := by
  intro h
  simp only [ht_create_entry] at h
  split at h
  · split at h
    · cases h; rfl
    · cases h
  · cases h

/-- A clean failure of the chain walk leaves the chain as it was. -/
theorem setChain_none_eq (a : Alloc) (k v : Str) :
    ∀ ch ch2, setChain a k v ch = some (none, ch2) → ch2 = ch := by
  intro ch
  induction ch with
  | nil =>
    intro ch2 h
    simp only [setChain] at h
    split at h
    · cases h
    · cases h; rfl
    · cases h
  | cons e rest ih =>
    intro ch2 h
    simp only [setChain] at h
    split at h
    · split at h
      · cases h
      · cases h; rfl
    · split at h
      · cases h
      · rename_i heq
        cases h
        rw [ih _ heq]

/-- A successful chain walk makes `k` look up to the new value. -/
theorem setChain_get_self (a : Alloc) (k v : Str) :
    ∀ ch e ch2, setChain a k v ch = some (some e, ch2) → chainGet k ch2 = some v := by
  intro ch
  induction ch with
  | nil =>
    intro e ch2 h
    cases hc : ht_create_entry a k v with
    | ub => simp only [setChain, hc] at h; simp at h
    | fail => simp only [setChain, hc] at h; simp at h
    | ok e2 =>
      simp only [setChain, hc] at h
      cases h
      rw [ht_create_entry_ok a k v e hc]
      simp [chainGet]
  | cons e0 rest ih =>
    intro e ch2 h
    simp only [setChain] at h
    split at h
    · rename_i hk
      split at h
      · cases h
        simp [chainGet, hk]
      · cases h
    · rename_i hk
      split at h
      · cases h
      · rename_i r rest2 heq
        cases h
        simp only [chainGet, if_neg hk]
        exact ih _ _ heq

/-- The chain walk never changes the lookup of any other key. -/
theorem setChain_get_other (a : Alloc) (k v k2 : Str) (hne : k2 ≠ k) :
    ∀ ch r ch2, setChain a k v ch = some (r, ch2) →
      chainGet k2 ch2 = chainGet k2 ch := by
  intro ch
  induction ch with
  | nil =>
    intro r ch2 h
    cases hc : ht_create_entry a k v with
    | ub => simp only [setChain, hc] at h; simp at h
    | fail => simp only [setChain, hc] at h; cases h; rfl
    | ok e =>
      simp only [setChain, hc] at h
      cases h
      rw [ht_create_entry_ok a k v e hc]
      simp [chainGet, hne.symm]
  | cons e0 rest ih =>
    intro r ch2 h
    simp only [setChain] at h
    split at h
    · rename_i hk
      split at h
      · cases h
        by_cases h2 : e0.key = k2
        · exact absurd (h2.symm.trans hk) hne
        · simp [chainGet, h2]
      · cases h; rfl
    · rename_i hk
      split at h
      · cases h
      · rename_i r2 rest2 heq
        cases h
        by_cases h2 : e0.key = k2
        · simp [chainGet, h2]
        · simp only [chainGet, if_neg h2]
          exact ih _ _ heq

/-- The chain walk keeps the entries of every other key, in order. -/
theorem setChain_filter (a : Alloc) (k v : Str) :
    ∀ ch r ch2, setChain a k v ch = some (r, ch2) →
      othersOf k ch2 = othersOf k ch := by
  intro ch
  induction ch with
  | nil =>
    intro r ch2 h
    cases hc : ht_create_entry a k v with
    | ub => simp only [setChain, hc] at h; simp at h
    | fail => simp only [setChain, hc] at h; cases h; rfl
    | ok e =>
      simp only [setChain, hc] at h
      cases h
      rw [ht_create_entry_ok a k v e hc]
      simp [othersOf]
  | cons e0 rest ih =>
    intro r ch2 h
    simp only [setChain] at h
    split at h
    · rename_i hk
      split at h
      · cases h
        simp [othersOf, List.filter_cons, hk]
      · cases h; rfl
    · rename_i hk
      split at h
      · simp at h
      · rename_i r2 rest2 heq
        cases h
        have hrest := ih _ _ heq
        simp only [othersOf] at hrest ⊢
        rw [List.filter_cons, List.filter_cons, hrest]

/-- When the key is already present, a successful walk preserves the slot's
key sequence (the value is replaced in place). -/
theorem setChain_keys_mem (a : Alloc) (k v : Str) :
    ∀ ch e ch2, setChain a k v ch = some (some e, ch2) →
      k ∈ ch.map Entry.key → ch2.map Entry.key = ch.map Entry.key := by
  intro ch
  induction ch with
  | nil =>
    intro e ch2 h hm
    simp at hm
  | cons e0 rest ih =>
    intro e ch2 h hm
    simp only [setChain] at h
    split at h
    · rename_i hk
      split at h
      · cases h; simp
      · cases h
    · rename_i hk
      split at h
      · simp at h
      · rename_i r2 rest2 heq
        cases h
        have hm2 : k ∈ rest.map Entry.key := by
          simp only [List.map_cons, List.mem_cons] at hm
          cases hm with
          | inl h2 => exact absurd h2.symm hk
          | inr h2 => exact h2
        simp [ih _ _ heq hm2]

/-- When the key is new, a successful walk appends exactly one entry at the
chain's tail. -/
theorem setChain_append_new (a : Alloc) (k v : Str) :
    ∀ ch e ch2, setChain a k v ch = some (some e, ch2) →
      k ∉ ch.map Entry.key → ch2 = ch ++ [⟨k, v⟩] := by
  intro ch
  induction ch with
  | nil =>
    intro e ch2 h hm
    cases hc : ht_create_entry a k v with
    | ub => simp only [setChain, hc] at h; simp at h
    | fail => simp only [setChain, hc] at h; simp at h
    | ok e2 =>
      simp only [setChain, hc] at h
      cases h
      rw [ht_create_entry_ok a k v e hc]
      rfl
  | cons e0 rest ih =>
    intro e ch2 h hm
    simp only [setChain] at h
    split at h
    · rename_i hk
      exact absurd (by simp [← hk]) hm
    · rename_i hk
      split at h
      · simp at h
      · rename_i r2 rest2 heq
        cases h
        have hm2 : k ∉ rest.map Entry.key := fun h2 => hm (by simp [h2])
        simp [ih _ _ heq hm2]

/-- Every key of the walked chain is an old key or the inserted key. -/
theorem setChain_keys_sub (a : Alloc) (k v : Str) :
    ∀ ch r ch2, setChain a k v ch = some (r, ch2) →
      ∀ x ∈ ch2.map Entry.key, x ∈ ch.map Entry.key ∨ x = k := by
  intro ch
  induction ch with
  | nil =>
    intro r ch2 h x hx
    cases hc : ht_create_entry a k v with
    | ub => simp only [setChain, hc] at h; simp at h
    | fail => simp only [setChain, hc] at h; cases h; simp at hx
    | ok e =>
      simp only [setChain, hc] at h
      cases h
      rw [ht_create_entry_ok a k v e hc] at hx
      simp at hx
      exact Or.inr hx
  | cons e0 rest ih =>
    intro r ch2 h x hx
    simp only [setChain] at h
    split at h
    · rename_i hk
      split at h
      · cases h
        simp only [List.map_cons, List.mem_cons] at hx ⊢
        exact Or.inl hx
      · cases h
        exact Or.inl hx
    · rename_i hk
      split at h
      · simp at h
      · rename_i r2 rest2 heq
        cases h
        simp only [List.map_cons, List.mem_cons] at hx
        cases hx with
        | inl h2 => exact Or.inl (by simp [h2])
        | inr h2 =>
          cases ih _ _ heq x h2 with
          | inl h3 => exact Or.inl (by simp [h3])
          | inr h3 => exact Or.inr h3

/-- The chain walk preserves key distinctness within the chain. -/
theorem setChain_nodup (a : Alloc) (k v : Str) :
    ∀ ch r ch2, setChain a k v ch = some (r, ch2) →
      (ch.map Entry.key).Nodup → (ch2.map Entry.key).Nodup := by
  intro ch
  induction ch with
  | nil =>
    intro r ch2 h hd
    cases hc : ht_create_entry a k v with
    | ub => simp only [setChain, hc] at h; simp at h
    | fail => simp only [setChain, hc] at h; cases h; simp
    | ok e =>
      simp only [setChain, hc] at h
      cases h
      simp
  | cons e0 rest ih =>
    intro r ch2 h hd
    simp only [setChain] at h
    split at h
    · rename_i hk
      split at h
      · cases h
        simpa using hd
      · cases h
        exact hd
    · rename_i hk
      split at h
      · simp at h
      · rename_i r2 rest2 heq
        cases h
        simp only [List.map_cons, List.nodup_cons] at hd ⊢
        refine ⟨?_, ih _ _ heq hd.2⟩
        intro hmem
        cases setChain_keys_sub a k v _ _ _ heq e0.key hmem with
        | inl h2 => exact hd.1 h2
        | inr h2 => exact hk h2

/-- Dissection of a returning `ht_set` call: both the empty-slot branch and
the chain walk leave the slot `hash k` holding a chain related to the old
one exactly as `setChain` describes, and touch nothing else. -/
theorem ht_set_out (a : Alloc) (t : Table) (k v : Str) (r : Option Entry) (t2 : Table) :
    ht_set a t k v = SetOut.out r t2 →
    ∃ ch2, setChain a k v (t (hash k)) = some (r, ch2) ∧
      t2 = updateT t (hash k) ch2 := by
  intro h
  simp only [ht_set] at h
  cases hch : t (hash k) with
  | nil =>
    rw [hch] at h
    cases hc : ht_create_entry a k v with
    | ub => simp only [hc] at h; simp at h
    | fail =>
      simp only [hc] at h
      cases h
      exact ⟨[], by simp [setChain, hch, hc], rfl⟩
    | ok e =>
      simp only [hc] at h
      cases h
      exact ⟨[e], by simp [setChain, hch, hc], rfl⟩
  | cons e0 rest =>
    rw [hch] at h
    cases hsc : setChain a k v (e0 :: rest) with
    | none => simp only [hsc] at h; simp at h
    | some p =>
      obtain ⟨r2, ch2⟩ := p
      simp only [hsc] at h
      cases h
      exact ⟨ch2, rfl, rfl⟩

/-- A `NULL`-returning `ht_set` leaves the table exactly as it was. -/
theorem ht_set_none_eq (a : Alloc) (t : Table) (k v : Str) (t2 : Table)
    (h : ht_set a t k v = SetOut.out none t2) : t2 = t := by
  obtain ⟨ch2, hsc, ht2⟩ := ht_set_out a t k v none t2 h
  rw [setChain_none_eq a k v _ _ hsc] at ht2
  rw [ht2, updateT_self]

/-- A successful `ht_set` makes the key look up to the new value. -/
theorem ht_set_get_self (a : Alloc) (t : Table) (k v : Str) (e : Entry) (t2 : Table)
    (h : ht_set a t k v = SetOut.out (some e) t2) : ht_get t2 k = some v := by
  obtain ⟨ch2, hsc, ht2⟩ := ht_set_out a t k v (some e) t2 h
  rw [ht2]
  show chainGet k (updateT t (hash k) ch2 (hash k)) = some v
  rw [updateT_same]
  exact setChain_get_self a k v _ _ _ hsc

/-- A returning `ht_set` that is not a successful call on `k` (different
key, or `NULL` returned) does not change what `k` looks up to. -/
theorem ht_set_get_pres (a : Alloc) (t : Table) (k2 v : Str) (r : Option Entry)
    (t2 : Table) (k : Str) (h : ht_set a t k2 v = SetOut.out r t2)
    (hcond : k2 ≠ k ∨ r = none) : ht_get t2 k = ht_get t k := by
  cases hcond with
  | inr hr =>
    subst hr
    rw [ht_set_none_eq a t k2 v t2 h]
  | inl hne =>
    obtain ⟨ch2, hsc, ht2⟩ := ht_set_out a t k2 v r t2 h
    rw [ht2]
    show chainGet k (updateT t (hash k2) ch2 (hash k)) = ht_get t k
    by_cases hh : hash k = hash k2
    · rw [hh, updateT_same]
      rw [setChain_get_other a k2 v k (Ne.symm hne) _ _ _ hsc]
      show chainGet k (t (hash k2)) = ht_get t k
      rw [← hh]
      rfl
    · rw [updateT_other t _ _ _ hh]
      rfl

/-- A lookup hit means the key is on the slot's chain. -/
theorem chainGet_some_mem (k : Str) :
    ∀ ch v, chainGet k ch = some v → k ∈ ch.map Entry.key := by
  intro ch
  induction ch with
  | nil => intro v h; simp [chainGet] at h
  | cons e rest ih =>
    intro v h
    simp only [chainGet] at h
    by_cases hk : e.key = k
    · simp [hk]
    · rw [if_neg hk] at h
      simp [ih _ h]

/-- The freshly initialized table is well formed. -/
theorem wf_init : wf initTable := by
  constructor
  · intro i e he
    simp [initTable] at he
  · intro i
    simp [initTable]

/-- A returning `ht_set` preserves well-formedness. -/
theorem wf_set (a : Alloc) (t : Table) (k v : Str) (r : Option Entry) (t2 : Table)
    (h : ht_set a t k v = SetOut.out r t2) (hwf : wf t) : wf t2 := by
  obtain ⟨ch2, hsc, ht2⟩ := ht_set_out a t k v r t2 h
  subst ht2
  constructor
  · intro i e he
    by_cases hi : i = hash k
    · subst hi
      rw [updateT_same] at he
      have hx := setChain_keys_sub a k v _ _ _ hsc e.key
        (List.mem_map.mpr ⟨e, he, rfl⟩)
      cases hx with
      | inl hx2 =>
        obtain ⟨e2, he2, hk2⟩ := List.mem_map.mp hx2
        rw [← hk2]
        exact hwf.1 (hash k) e2 he2
      | inr hx2 => rw [hx2]
    · rw [updateT_other t _ _ _ hi] at he
      exact hwf.1 i e he
  · intro i
    by_cases hi : i = hash k
    · subst hi
      rw [updateT_same]
      exact setChain_nodup a k v _ _ _ hsc (hwf.2 _)
    · rw [updateT_other t _ _ _ hi]
      exact hwf.2 i

/-- Running a sequence of `ht_set` calls preserves well-formedness. -/
theorem runOps_wf : ∀ ops (t t2 : Table), runOps t ops = some t2 → wf t → wf t2 := by
  intro ops
  induction ops with
  | nil =>
    intro t t2 h hwf
    simp only [runOps] at h
    cases h
    exact hwf
  | cons op rest ih =>
    intro t t2 h hwf
    simp only [runOps] at h
    cases hs : ht_set op.alloc t op.key op.value with
    | ub => simp only [hs] at h; simp at h
    | out r t3 =>
      simp only [hs] at h
      exact ih _ _ h (wf_set _ _ _ _ _ _ hs hwf)

/-- Along a run whose calls all target other keys, an absent key stays
absent. -/
theorem runOps_get_none (k : Str) :
    ∀ ops (t t2 : Table), runOps t ops = some t2 → ht_get t k = none →
      (∀ op ∈ ops, op.key ≠ k) → ht_get t2 k = none := by
  intro ops
  induction ops with
  | nil =>
    intro t t2 h hg _
    simp only [runOps] at h
    cases h
    exact hg
  | cons op rest ih =>
    intro t t2 h hg hk
    simp only [runOps] at h
    cases hs : ht_set op.alloc t op.key op.value with
    | ub => simp only [hs] at h; simp at h
    | out r t3 =>
      simp only [hs] at h
      refine ih _ _ h ?_ (fun op2 hop2 => hk op2 (List.mem_cons_of_mem op hop2))
      rw [ht_set_get_pres _ _ _ _ _ _ _ hs (Or.inl (hk op (List.mem_cons_self op rest)))]
      exact hg

/-- In a well-formed table, a slot other than `hash k` holds no entry with
key `k`. -/
theorem count_slot_ne (t : Table) (hwf : wf t) (k : Str) (i : Nat) (hi : i ≠ hash k) :
    ((t i).map Entry.key).count k = 0 := by
  rw [List.count_eq_zero]
  intro hk
  obtain ⟨e, he, hek⟩ := List.mem_map.mp hk
  have h2 := hwf.1 i e he
  rw [hek] at h2
  exact hi h2.symm

/-- In a well-formed table, the number of enumerated pairs with key `k`
among the first `n` slots is its count on the chain of slot `hash k`. -/
theorem count_enumUpTo (t : Table) (hwf : wf t) (k : Str) :
    ∀ n, ((enumUpTo t n).map (fun p => p.2.1)).count k =
      if hash k < n then ((t (hash k)).map Entry.key).count k else 0 := by
  intro n
  induction n with
  | zero => simp [enumUpTo]
  | succ n ih =>
    have hmap : ((t n).map (fun e => (n, e.key, e.value))).map
        (fun p : Nat × Str × Str => p.2.1) = (t n).map Entry.key := by
      rw [List.map_map]; rfl
    simp only [enumUpTo, List.map_append, List.count_append, ih, hmap]
    by_cases hlt : hash k < n
    · have hne : n ≠ hash k := by omega
      rw [if_pos hlt, if_pos (by omega), count_slot_ne t hwf k n hne]
      omega
    · by_cases heq : hash k = n
      · subst heq
        rw [if_neg hlt, if_pos (by omega)]
        omega
      · rw [if_neg hlt, if_neg (by omega), count_slot_ne t hwf k n (by omega)]

/-- A key held exactly once: counting in a duplicate-free list of keys. -/
theorem count_key_eq_one {a : Str} :
    ∀ {l : List Str}, l.Nodup → a ∈ l → l.count a = 1 := by
  intro l
  induction l with
  | nil => intro _ hm; simp at hm
  | cons x xs ih =>
    intro hd hm
    simp only [List.nodup_cons] at hd
    rw [List.count_cons]
    rcases List.mem_cons.mp hm with h | h
    · subst h
      rw [List.count_eq_zero.mpr hd.1]
      simp
    · rw [ih hd.2 h]
      have hne : ¬ x == a := by
        intro hx
        rw [eq_of_beq hx] at hd
        exact hd.1 h
      simp [hne]

/-- In a well-formed table that holds key `k`, enumeration lists `k`
exactly once. -/
theorem count_enumKeys_eq_one (t : Table) (hwf : wf t) (k : Str)
    (hm : k ∈ (t (hash k)).map Entry.key) : (enumKeys t).count k = 1 := by
  have h := count_enumUpTo t hwf k TABLE_SIZE
  rw [if_pos (hash_lt k)] at h
  show ((enumUpTo t TABLE_SIZE).map (fun p => p.2.1)).count k = 1
  rw [h]
  exact count_key_eq_one (hwf.2 (hash k)) hm

/-- In a well-formed table, a key listed among the first `n` slots hashes
below `n`. -/
theorem mem_enumKeysUpTo (t : Table) (hwf : wf t) (k : Str) :
    ∀ n, k ∈ (enumUpTo t n).map (fun p => p.2.1) → hash k < n := by
  intro n
  induction n with
  | zero => simp [enumUpTo]
  | succ n ih =>
    intro hk
    simp only [enumUpTo, List.map_append, List.mem_append] at hk
    cases hk with
    | inl h => exact Nat.lt_succ_of_lt (ih h)
    | inr h =>
      rw [List.map_map] at h
      obtain ⟨e, he, hek⟩ := List.mem_map.mp h
      have h2 := hwf.1 n e he
      simp only [Function.comp] at hek
      rw [hek] at h2
      omega

/-- In a well-formed table, no key appears twice in any enumeration
prefix. -/
theorem enumKeysUpTo_nodup (t : Table) (hwf : wf t) :
    ∀ n, ((enumUpTo t n).map (fun p => p.2.1)).Nodup := by
  intro n
  induction n with
  | zero => simp [enumUpTo]
  | succ n ih =>
    simp only [enumUpTo, List.map_append]
    refine List.Nodup.append ih ?_ ?_
    · have hmap : ((t n).map (fun e => (n, e.key, e.value))).map
          (fun p : Nat × Str × Str => p.2.1) = (t n).map Entry.key := by
        rw [List.map_map]; rfl
      rw [hmap]
      exact hwf.2 n
    · intro x hx hxb
      have h1 := mem_enumKeysUpTo t hwf x n hx
      rw [List.map_map] at hxb
      obtain ⟨e, he, hek⟩ := List.mem_map.mp hxb
      have h2 := hwf.1 n e he
      simp only [Function.comp] at hek
      rw [hek] at h2
      omega

/-- In a well-formed table, enumeration lists no key twice. -/
theorem enumKeys_nodup (t : Table) (hwf : wf t) : (enumKeys t).Nodup :=
  enumKeysUpTo_nodup t hwf TABLE_SIZE

/-- Every entry of a slot below `n` appears in the enumeration prefix. -/
theorem mem_enumUpTo_of_mem (t : Table) :
    ∀ n i, i < n → ∀ e ∈ t i, (i, e.key, e.value) ∈ enumUpTo t n := by
  intro n
  induction n with
  | zero =>
    intro i hi
    exact absurd hi (Nat.not_lt_zero i)
  | succ n ih =>
    intro i hi e he
    simp only [enumUpTo, List.mem_append]
    by_cases h : i < n
    · exact Or.inl (ih i h e he)
    · have hin : i = n := by omega
      subst hin
      exact Or.inr (List.mem_map.mpr ⟨e, he, rfl⟩)

/-- Slot indices in the enumeration prefix stay below the bound. -/
theorem enumUpTo_fst_lt (t : Table) :
    ∀ n p, p ∈ enumUpTo t n → p.1 < n := by
  intro n
  induction n with
  | zero => simp [enumUpTo]
  | succ n ih =>
    intro p hp
    simp only [enumUpTo, List.mem_append] at hp
    cases hp with
    | inl h => exact Nat.lt_succ_of_lt (ih p h)
    | inr h =>
      obtain ⟨e, _, hek⟩ := List.mem_map.mp h
      rw [← hek]
      exact Nat.lt_succ_self n

/-- A list holding one value repeated is weakly sorted. -/
theorem pairwise_le_map_const (n : Nat) :
    ∀ (l : List Entry), (l.map (fun _ => n)).Pairwise (· ≤ ·) := by
  intro l
  induction l with
  | nil => simp
  | cons e rest ih =>
    simp only [List.map_cons, List.pairwise_cons]
    refine ⟨?_, ih⟩
    intro b hb
    obtain ⟨e2, _, hek⟩ := List.mem_map.mp hb
    omega

/-- Slot indices in the enumeration are weakly increasing. -/
theorem enumUpTo_fst_sorted (t : Table) :
    ∀ n, ((enumUpTo t n).map Prod.fst).Pairwise (· ≤ ·) := by
  intro n
  induction n with
  | zero => simp [enumUpTo]
  | succ n ih =>
    simp only [enumUpTo, List.map_append]
    rw [List.pairwise_append]
    refine ⟨ih, ?_, ?_⟩
    · rw [List.map_map]
      exact pairwise_le_map_const n (t n)
    · intro x hx b hb
      obtain ⟨p, hp, hpa⟩ := List.mem_map.mp hx
      have h1 := enumUpTo_fst_lt t n p hp
      rw [List.map_map] at hb
      obtain ⟨e, _, heb⟩ := List.mem_map.mp hb
      simp only [Function.comp] at heb
      omega

/-- The read-only lookup walk hands back the chain it was given. -/
theorem chainGetSt_eq (k : Str) :
    ∀ ch, chainGetSt k ch = (chainGet k ch, ch) := by
  intro ch
  induction ch with
  | nil => rfl
  | cons e rest ih =>
    simp only [chainGetSt, chainGet, ih]
    by_cases hk : e.key = k <;> simp [hk]

/-- The state-threaded `ht_get` returns the pure lookup and the unchanged
table. -/
theorem ht_get_st_eq (t : Table) (k : Str) : ht_get_st t k = (ht_get t k, t) := by
  simp only [ht_get_st, chainGetSt_eq, ht_get]
  rw [updateT_self]

/-- When all bytes are below 128, the hash loop agrees with the spec's
plain-byte accumulation. -/
theorem foldl_hashStep_eq :
    ∀ (key : Str), (∀ b ∈ key, b < 128) →
      ∀ acc, key.foldl hashStep acc = key.foldl specHashStep acc := by
  intro key
  induction key with
  | nil => intro _ acc; rfl
  | cons b rest ih =>
    intro hb acc
    simp only [List.foldl_cons]
    have hstep : hashStep acc b = specHashStep acc b := by
      simp only [hashStep, specHashStep, charAsSize,
        if_pos (hb b (List.mem_cons_self b rest))]
    rw [hstep]
    exact ih (fun b2 hb2 => hb b2 (List.mem_cons_of_mem b hb2)) _

def allocOK : Alloc := ⟨true, true, true, true⟩

def allocNoKeyBuf : Alloc := ⟨true, false, true, true⟩

/-- C1: for every key `k` on which `set(k, v)` was the most recent
successful set call — any later returning `set` either targets a different
key or returns `NULL` (`KeptSince`) — a subsequent `get(k)` returns `v`. -/
theorem c1_lookup_after_set (a : Alloc) (t : Table) (k v : Str) (e : Entry)
    (t1 t2 : Table) (hset : ht_set a t k v = SetOut.out (some e) t1)
    (hkeep : KeptSince k t1 t2) : ht_get t2 k = some v := by
  induction hkeep with
  | refl => exact ht_set_get_self a t k v e t1 hset
  | step hk hs hcond ih =>
    rw [ht_set_get_pres _ _ _ _ _ _ _ hs hcond]
    exact ih

/-- Witness for C1: insert `"a" ↦ "b"`, then insert a different key, and
`get "a"` still returns `"b"`. -/
theorem c1_witness :
    ht_set allocOK initTable [97] [98] =
      SetOut.out (some ⟨[97], [98]⟩) (updateT initTable (hash [97]) [⟨[97], [98]⟩]) ∧
    ht_get (updateT (updateT initTable (hash [97]) [⟨[97], [98]⟩])
      (hash [99]) [⟨[99], [100]⟩]) [97] = some [98] := by
  refine ⟨rfl, ?_⟩
  exact c1_lookup_after_set allocOK initTable [97] [98] ⟨[97], [98]⟩ _ _ rfl
    (KeptSince.step KeptSince.refl
      (show ht_set allocOK (updateT initTable (hash [97]) [⟨[97], [98]⟩]) [99] [100] =
        SetOut.out (some ⟨[99], [100]⟩)
          (updateT (updateT initTable (hash [97]) [⟨[97], [98]⟩])
            (hash [99]) [⟨[99], [100]⟩]) from rfl)
      (Or.inl (by decide)))

/-- C2: if `ht_set` signals allocation failure by returning `NULL`, the
map's observable contents via `get` and `enumerate` are exactly as before
the call (this covers all three clean failure paths: empty slot, update,
tail append). -/
theorem c2_failure_atomic (a : Alloc) (t : Table) (k v : Str) (t2 : Table)
    (h : ht_set a t k v = SetOut.out none t2) :
    (∀ k2, ht_get t2 k2 = ht_get t k2) ∧ enumerate t2 = enumerate t := by
  have heq := ht_set_none_eq a t k v t2 h
  subst heq
  exact ⟨fun k2 => rfl, rfl⟩

/-- Witness for C2: the value-buffer allocation fails while inserting into
an empty slot; the table reads exactly as the empty table. -/
theorem c2_witness :
    ht_set allocNoKeyBuf initTable [97] [98] =
      SetOut.out none (updateT initTable (hash [97]) []) ∧
    ht_get (updateT initTable (hash [97]) []) [97] = ht_get initTable [97] ∧
    enumerate (updateT initTable (hash [97]) []) = enumerate initTable := by
  refine ⟨rfl, ?_, ?_⟩
  · exact (c2_failure_atomic allocNoKeyBuf initTable [97] [98] _ rfl).1 [97]
  · exact (c2_failure_atomic allocNoKeyBuf initTable [97] [98] _ rfl).2

/-- C3: a successful `set(k, v1)` followed by a successful `set(k, v2)`
leaves exactly one entry for `k` in the whole map, with value `v2`; the
slot's key sequence is untouched by the second call (value replaced in
place, key unchanged) and all other slots are untouched. -/
theorem c3_update_semantics (a1 a2 : Alloc) (t : Table) (k v1 v2 : Str)
    (e1 e2 : Entry) (t1 t2 : Table) (hwf : wf t)
    (h1 : ht_set a1 t k v1 = SetOut.out (some e1) t1)
    (h2 : ht_set a2 t1 k v2 = SetOut.out (some e2) t2) :
    (enumKeys t2).count k = 1 ∧ ht_get t2 k = some v2 ∧
    (t2 (hash k)).map Entry.key = (t1 (hash k)).map Entry.key ∧
    ∀ j, j ≠ hash k → t2 j = t1 j := by
  have hwf1 := wf_set a1 t k v1 _ _ h1 hwf
  have hwf2 := wf_set a2 t1 k v2 _ _ h2 hwf1
  have hget1 := ht_set_get_self a1 t k v1 e1 t1 h1
  have hget2 := ht_set_get_self a2 t1 k v2 e2 t2 h2
  have hmem1 : k ∈ (t1 (hash k)).map Entry.key := chainGet_some_mem k _ _ hget1
  have hmem2 : k ∈ (t2 (hash k)).map Entry.key := chainGet_some_mem k _ _ hget2
  obtain ⟨ch2, hsc, ht2⟩ := ht_set_out a2 t1 k v2 _ _ h2
  refine ⟨count_enumKeys_eq_one t2 hwf2 k hmem2, hget2, ?_, ?_⟩
  · rw [ht2, updateT_same]
    exact setChain_keys_mem a2 k v2 _ _ _ hsc hmem1
  · intro j hj
    rw [ht2]
    exact updateT_other t1 _ _ _ hj

/-- Witness for C3: `set "a" "b"` then `set "a" "c"` on the empty table. -/
theorem c3_witness :
    wf initTable ∧
    ht_set allocOK initTable [97] [98] =
      SetOut.out (some ⟨[97], [98]⟩) (updateT initTable (hash [97]) [⟨[97], [98]⟩]) ∧
    ht_set allocOK (updateT initTable (hash [97]) [⟨[97], [98]⟩]) [97] [99] =
      SetOut.out (some ⟨[97], [99]⟩)
        (updateT (updateT initTable (hash [97]) [⟨[97], [98]⟩])
          (hash [97]) [⟨[97], [99]⟩]) ∧
    (enumKeys (updateT (updateT initTable (hash [97]) [⟨[97], [98]⟩])
      (hash [97]) [⟨[97], [99]⟩])).count [97] = 1 ∧
    ht_get (updateT (updateT initTable (hash [97]) [⟨[97], [98]⟩])
      (hash [97]) [⟨[97], [99]⟩]) [97] = some [99] := by
  have hwf0 : wf initTable := wf_init
  have hc := c3_update_semantics allocOK allocOK initTable [97] [98] [99]
    ⟨[97], [98]⟩ ⟨[97], [99]⟩ _ _ hwf0 rfl rfl
  exact ⟨hwf0, rfl, rfl, hc.1, hc.2.1⟩

/-- C4 counterexample: for the one-byte key `0xC3` (a valid C string, and a
byte the sample driver's own keys contain in UTF-8), `hash` reads the byte
as a signed `char`, so it disagrees with the spec's `acc = acc * 37 + byte`
accumulation (`specHash`). -/
theorem c4_counterexample :
    CStr [195] ∧ hash [195] = 51555 ∧ specHash [195] = 195 ∧
    hash [195] ≠ specHash [195] := by
  refine ⟨?_, by decide, by decide, by decide⟩
  show ∀ b ∈ ([195] : Str), 0 < b ∧ b < 256
  decide

/-- C4 (amended): `hash` deterministically lands in `[0, TABLE_SIZE)`; it
folds `acc = acc * 37 + c` over the first `strlen mod 2^32` bytes, where
`c` is the byte read as a signed `char` (bytes ≥ 128 contribute
`byte - 256` in wrapping `size_t` arithmetic).  For keys shorter than
`2^32` whose bytes are all below 128 this coincides with the claimed
plain-byte accumulation. -/
theorem c4_hash_amended (key : Str) :
    hash key < TABLE_SIZE ∧
    (key.length < 2 ^ 32 → (∀ b ∈ key, b < 128) → hash key = specHash key) := by
  refine ⟨hash_lt key, ?_⟩
  intro hlen hb
  show (key.take (key.length % 2 ^ 32)).foldl hashStep 0 % TABLE_SIZE =
    key.foldl specHashStep 0 % TABLE_SIZE
  rw [Nat.mod_eq_of_lt hlen, List.take_length]
  rw [foldl_hashStep_eq key hb 0]

/-- Witness for C4: the all-ASCII key `"madrid"` hashes as the spec
describes. -/
theorem c4_witness :
    ([109, 97, 100, 114, 105, 100] : Str).length < 2 ^ 32 ∧
    (∀ b ∈ ([109, 97, 100, 114, 105, 100] : Str), b < 128) ∧
    hash [109, 97, 100, 114, 105, 100] = specHash [109, 97, 100, 114, 105, 100] :=
  ⟨by decide, by decide,
    (c4_hash_amended [109, 97, 100, 114, 105, 100]).2 (by decide) (by decide)⟩

/-- C5: after every sequence of `ht_set` calls on the fresh table
(successful or cleanly failing), enumeration yields no two pairs with the
same key. -/
theorem c5_key_uniqueness (ops : List Op) (t : Table)
    (h : runOps initTable ops = some t) : (enumKeys t).Nodup :=
  enumKeys_nodup t (runOps_wf ops initTable t h wf_init)

/-- Witness for C5: a successful insert, a failed insert, and an update. -/
theorem c5_witness :
    runOps initTable
      [⟨allocOK, [97], [98]⟩, ⟨allocNoKeyBuf, [99], [100]⟩, ⟨allocOK, [97], [101]⟩] =
      some (updateT (updateT (updateT initTable (hash [97]) [⟨[97], [98]⟩])
        (hash [99]) []) (hash [97]) [⟨[97], [101]⟩]) ∧
    (enumKeys (updateT (updateT (updateT initTable (hash [97]) [⟨[97], [98]⟩])
      (hash [99]) []) (hash [97]) [⟨[97], [101]⟩])).Nodup := by
  refine ⟨rfl, ?_⟩
  exact c5_key_uniqueness
    [⟨allocOK, [97], [98]⟩, ⟨allocNoKeyBuf, [99], [100]⟩, ⟨allocOK, [97], [101]⟩]
    _ rfl

/-- C6: enumeration is grouped by slot index in ascending order, yields
every stored pair, and a colliding new key is appended at the tail of its
slot's chain (within-slot insertion order, oldest first). -/
theorem c6_enum_order (t : Table) (a : Alloc) (k v : Str) (e : Entry) (t2 : Table) :
    ((enumerate t).map Prod.fst).Sorted (· ≤ ·) ∧
    (∀ i ent, i < TABLE_SIZE → ent ∈ t i → (i, ent.key, ent.value) ∈ enumerate t) ∧
    (ht_set a t k v = SetOut.out (some e) t2 → k ∉ (t (hash k)).map Entry.key →
      t2 (hash k) = t (hash k) ++ [⟨k, v⟩]) := by
  refine ⟨enumUpTo_fst_sorted t TABLE_SIZE, ?_, ?_⟩
  · intro i ent hi hent
    exact mem_enumUpTo_of_mem t TABLE_SIZE i hi ent hent
  · intro hset hmem
    obtain ⟨ch2, hsc, ht2⟩ := ht_set_out a t k v _ _ hset
    rw [ht2, updateT_same]
    exact setChain_append_new a k v _ _ _ hsc hmem

/-- Witness for C6: the keys `"a"` and `[2, 23]` collide in slot 97; the
second insert is appended after the first, and the stored pair is
enumerated. -/
theorem c6_witness :
    (97 < TABLE_SIZE ∧ (⟨[97], [98]⟩ : Entry) ∈ updateT initTable (hash [97]) [⟨[97], [98]⟩] 97 ∧
      (97, [97], [98]) ∈ enumerate (updateT initTable (hash [97]) [⟨[97], [98]⟩])) ∧
    ht_set allocOK (updateT initTable (hash [97]) [⟨[97], [98]⟩]) [2, 23] [99] =
      SetOut.out (some ⟨[2, 23], [99]⟩)
        (updateT (updateT initTable (hash [97]) [⟨[97], [98]⟩]) (hash [2, 23])
          [⟨[97], [98]⟩, ⟨[2, 23], [99]⟩]) ∧
    [2, 23] ∉ ((updateT initTable (hash [97]) [⟨[97], [98]⟩] (hash [2, 23])).map Entry.key) ∧
    updateT (updateT initTable (hash [97]) [⟨[97], [98]⟩]) (hash [2, 23])
        [⟨[97], [98]⟩, ⟨[2, 23], [99]⟩] (hash [2, 23]) =
      updateT initTable (hash [97]) [⟨[97], [98]⟩] (hash [2, 23]) ++ [⟨[2, 23], [99]⟩] := by
  refine ⟨⟨by decide, by decide, ?_⟩, rfl, by decide, ?_⟩
  · exact (c6_enum_order (updateT initTable (hash [97]) [⟨[97], [98]⟩])
      allocOK [2, 23] [99] ⟨[2, 23], [99]⟩
      (updateT (updateT initTable (hash [97]) [⟨[97], [98]⟩]) (hash [2, 23])
        [⟨[97], [98]⟩, ⟨[2, 23], [99]⟩])).2.1 97 ⟨[97], [98]⟩ (by decide) (by decide)
  · exact (c6_enum_order (updateT initTable (hash [97]) [⟨[97], [98]⟩])
      allocOK [2, 23] [99] ⟨[2, 23], [99]⟩
      (updateT (updateT initTable (hash [97]) [⟨[97], [98]⟩]) (hash [2, 23])
        [⟨[97], [98]⟩, ⟨[2, 23], [99]⟩])).2.2 rfl (by decide)

/-- C7: a key never passed to a *successful* `ht_set` is absent: `ht_get`
returns `NULL` on the fresh table, and still does after any sequence of
returning `ht_set` calls each of which either targets another key or
returns `NULL` (`KeptSince` from the fresh table) — so calls on `k` itself
that failed are covered. -/
theorem c7_absence (k : Str) (t2 : Table) :
    ht_get initTable k = none ∧
    (KeptSince k initTable t2 → ht_get t2 k = none) := by
  refine ⟨rfl, ?_⟩
  intro hkeep
  induction hkeep with
  | refl => rfl
  | step hk hs hcond ih =>
    rw [ht_set_get_pres _ _ _ _ _ _ _ hs hcond]
    exact ih

/-- Witness for C7: after a successful insert of `"a"` and a failed
(`NULL`-returning) insert of the key `"g"` itself, `"g"` is still
absent. -/
theorem c7_witness :
    KeptSince [103] initTable
      (updateT (updateT initTable (hash [97]) [⟨[97], [98]⟩]) (hash [103]) []) ∧
    ht_get (updateT (updateT initTable (hash [97]) [⟨[97], [98]⟩])
      (hash [103]) []) [103] = none := by
  have hkeep : KeptSince [103] initTable
      (updateT (updateT initTable (hash [97]) [⟨[97], [98]⟩]) (hash [103]) []) :=
    KeptSince.step
      (KeptSince.step KeptSince.refl
        (show ht_set allocOK initTable [97] [98] =
          SetOut.out (some ⟨[97], [98]⟩)
            (updateT initTable (hash [97]) [⟨[97], [98]⟩]) from rfl)
        (Or.inl (by decide)))
      (show ht_set allocNoKeyBuf (updateT initTable (hash [97]) [⟨[97], [98]⟩])
          [103] [99] =
        SetOut.out none (updateT (updateT initTable (hash [97]) [⟨[97], [98]⟩])
          (hash [103]) []) from rfl)
      (Or.inr rfl)
  exact ⟨hkeep, (c7_absence [103] _).2 hkeep⟩

/-- C8: `ht_get` (state-threaded exactly as the C walk reads the chain)
leaves the table unchanged, returns the pure lookup, and repeated reads —
lookup or enumeration — give identical results. -/
theorem c8_reads_idempotent (t : Table) (k : Str) :
    (ht_get_st t k).2 = t ∧ (ht_get_st t k).1 = ht_get t k ∧
    (ht_get_st ((ht_get_st t k).2) k).1 = (ht_get_st t k).1 ∧
    enumerate ((ht_get_st t k).2) = enumerate t := by
  simp [ht_get_st_eq]

/-- C9: contrary to the claim, the store `entry->key = malloc(...)` is
executed even when the node allocation failed: with a failed node
allocation (and any key/value), `ht_create_entry` writes through the null
`entry` pointer. -/
theorem c9_null_store_reachable :
    ht_create_entry ⟨false, true, true, true⟩ [97] [98] = CreateOut.ub := rfl

/-- C10: any returning `ht_set(k, v)` leaves every slot other than
`hash k` unchanged, and in slot `hash k` the subsequence of entries whose
key differs from `k` is unchanged in keys, values and relative order. -/
theorem c10_set_frame (a : Alloc) (t : Table) (k v : Str) (r : Option Entry)
    (t2 : Table) (h : ht_set a t k v = SetOut.out r t2) :
    (∀ j, j ≠ hash k → t2 j = t j) ∧
    othersOf k (t2 (hash k)) = othersOf k (t (hash k)) := by
  obtain ⟨ch2, hsc, ht2⟩ := ht_set_out a t k v r t2 h
  subst ht2
  constructor
  · intro j hj
    exact updateT_other t _ _ _ hj
  · rw [updateT_same]
    exact setChain_filter a k v _ _ _ hsc

/-- Witness for C10: updating the colliding key `[2, 23]` in a two-entry
chain leaves slot 5 and the entry for `"a"` untouched. -/
theorem c10_witness :
    ht_set allocOK (updateT initTable (hash [97]) [⟨[97], [98]⟩, ⟨[2, 23], [99]⟩])
        [2, 23] [100] =
      SetOut.out (some ⟨[2, 23], [100]⟩)
        (updateT (updateT initTable (hash [97]) [⟨[97], [98]⟩, ⟨[2, 23], [99]⟩])
          (hash [2, 23]) [⟨[97], [98]⟩, ⟨[2, 23], [100]⟩]) ∧
    updateT (updateT initTable (hash [97]) [⟨[97], [98]⟩, ⟨[2, 23], [99]⟩])
        (hash [2, 23]) [⟨[97], [98]⟩, ⟨[2, 23], [100]⟩] 5 =
      updateT initTable (hash [97]) [⟨[97], [98]⟩, ⟨[2, 23], [99]⟩] 5 ∧
    othersOf [2, 23]
        (updateT (updateT initTable (hash [97]) [⟨[97], [98]⟩, ⟨[2, 23], [99]⟩])
          (hash [2, 23]) [⟨[97], [98]⟩, ⟨[2, 23], [100]⟩] (hash [2, 23])) =
      othersOf [2, 23]
        (updateT initTable (hash [97]) [⟨[97], [98]⟩, ⟨[2, 23], [99]⟩] (hash [2, 23])) := by
  refine ⟨rfl, ?_, ?_⟩
  · exact (c10_set_frame allocOK
      (updateT initTable (hash [97]) [⟨[97], [98]⟩, ⟨[2, 23], [99]⟩])
      [2, 23] [100] (some ⟨[2, 23], [100]⟩) _ rfl).1 5 (by decide)
  · exact (c10_set_frame allocOK
      (updateT initTable (hash [97]) [⟨[97], [98]⟩, ⟨[2, 23], [99]⟩])
      [2, 23] [100] (some ⟨[2, 23], [100]⟩) _ rfl).2

end HT
